import Mathlib

/- Shallow embedding of src/wau.py (wau, a World of Warcraft addon updater).

   Modelling conventions:
   - Python strings are Lean Strings; a Python dict keyed by addon id is an
     association list (Python dicts are insertion ordered; assignment to an
     existing key keeps its position).
   - Timestamps (results of dateutil.parser.isoparse on fileDate) are
     modelled as integers carrying the chronological order; the source only
     compares them with a strict greater-than.
   - The manifest file on disk is modelled as its list of text lines: commit
     emits exactly one "\n"-terminated line per write call, and load consumes
     the file line by line (readline / iteration), so the two views agree
     whenever no token contains a newline; any token containing a newline
     also contains whitespace and is outside every claim considered here.
   - Exceptions are modelled with Except PyErr; an uncaught exception in a
     worker thread kills only that thread, an uncaught exception at module
     toplevel kills the run.
-/

set_option maxHeartbeats 1000000

/-- Python exception kinds raised by the modelled code paths of wau.py. -/
inductive PyErr where
  | attributeError
  | typeError
  | keyError
  | indexError
  | valueError
  | apiError (status : Int) (body : String)
  | badZipFile
deriving DecidableEq

/-- Decidable equality of Except values, used to evaluate the model on
concrete inputs. -/
instance {ε α : Type} [DecidableEq ε] [DecidableEq α] : DecidableEq (Except ε α) := fun x y =>
  match x, y with
  | .error a, .error b =>
    if h : a = b then .isTrue (congrArg Except.error h)
    else .isFalse (fun hh => h (Except.error.inj hh))
  | .error _, .ok _ => .isFalse (fun hh => Except.noConfusion hh)
  | .ok _, .error _ => .isFalse (fun hh => Except.noConfusion hh)
  | .ok a, .ok b =>
    if h : a = b then .isTrue (congrArg Except.ok h)
    else .isFalse (fun hh => h (Except.ok.inj hh))

/-- Whitespace characters recognised by Python str.split() / str.rstrip()
(restricted to the ASCII whitespace class, which covers every string any
claim touches). -/
def isPySpace (c : Char) : Bool :=
  c = ' ' || c = '\t' || c = '\n' || c = '\r' || c = '\x0b' || c = '\x0c'

/-- Decimal digit value of a character, none for a non-digit. -/
def charDigitVal (c : Char) : Option Nat :=
  if c = '0' then some 0 else if c = '1' then some 1 else if c = '2' then some 2
  else if c = '3' then some 3 else if c = '4' then some 4 else if c = '5' then some 5
  else if c = '6' then some 6 else if c = '7' then some 7 else if c = '8' then some 8
  else if c = '9' then some 9 else none

/-- Decimal digit character for a value below 10. -/
def decChar (d : Nat) : Char :=
  if d = 0 then '0' else if d = 1 then '1' else if d = 2 then '2' else if d = 3 then '3'
  else if d = 4 then '4' else if d = 5 then '5' else if d = 6 then '6' else if d = 7 then '7'
  else if d = 8 then '8' else '9'

/-- Fuel-driven loop computing decimal digits, least significant first; the
fuel only forces structural recursion and is irrelevant once it exceeds n. -/
def natDigitsRevGo : Nat → Nat → List Char
  | 0, _ => []
  | fuel + 1, n =>
    if n < 10 then [decChar n]
    else decChar (n % 10) :: natDigitsRevGo fuel (n / 10)

/-- Decimal digits of a natural number, least significant first. -/
def natDigitsRev (n : Nat) : List Char := natDigitsRevGo (n + 1) n

/-- Decimal representation of a natural number (what Python str() prints). -/
def natRepr (n : Nat) : String := ⟨(natDigitsRev n).reverse⟩

/-- Decimal representation of an integer (what Python str() prints). -/
def intRepr : Int → String
  | .ofNat n => natRepr n
  | .negSucc n => "-" ++ natRepr (n + 1)

/-- Accumulating loop of the decimal parser. -/
def pyNatGo (acc : Nat) : List Char → Option Nat
  | [] => some acc
  | c :: cs =>
    match charDigitVal c with
    | none => none
    | some d => pyNatGo (acc * 10 + d) cs

/-- Python int() on a nonnegative decimal string; none models ValueError.
The model covers canonical decimal representations, the only inputs the
claims evaluate it on. -/
def pyNat? : List Char → Option Nat
  | [] => none
  | l => pyNatGo 0 l

/-- Python int() on a possibly sign-prefixed decimal string. -/
def pyInt? (l : List Char) : Option Int :=
  match l with
  | [] => none
  | c :: cs =>
    if c = '-' then (pyNat? cs).map (fun n => -(n : Int))
    else (pyNat? (c :: cs)).map (fun n => (n : Int))

/-- Worker loop of Python str.split(): split on runs of whitespace,
dropping empty pieces; acc holds the current token reversed. -/
def pySplitGo : List Char → List Char → List (List Char)
  | [], acc => if acc = [] then [] else [acc.reverse]
  | c :: cs, acc =>
    if isPySpace c then
      if acc = [] then pySplitGo cs [] else acc.reverse :: pySplitGo cs []
    else pySplitGo cs (c :: acc)

/-- Python str.split() with no arguments. -/
def pySplit (s : String) : List (List Char) := pySplitGo s.data []

/-- Python str.rstrip() with no arguments: drop trailing whitespace. -/
def rstrip (s : String) : String := ⟨(s.data.reverse.dropWhile isPySpace).reverse⟩

/-- One value of the WAU_Manifest.addons dict: per-addon preference flag and
installed version token (wau.py lines 50-53). -/
structure AddonEntry where
  install_alpha : Bool
  version : String
deriving DecidableEq

/-- In-memory state of a WAU_Manifest instance. version is an Option because
when no manifest file exists the source's constructor catches OSError before
self.version is ever assigned, so the attribute is missing (none). -/
structure WAU_Manifest where
  manifest_path : String
  version : Option String
  addons : List (Int × AddonEntry)
deriving DecidableEq

/-- Python dict subscript read on the addons dict. -/
def lookupAddon : List (Int × AddonEntry) → Int → Option AddonEntry
  | [], _ => none
  | p :: rest, id => if p.1 = id then some p.2 else lookupAddon rest id

/-- Python dict subscript assignment on the addons dict: replace in place if
the key exists (keeping its position), else append. -/
def insertAddon (l : List (Int × AddonEntry)) (id : Int) (e : AddonEntry) : List (Int × AddonEntry) :=
  if (lookupAddon l id).isSome then
    l.map (fun p => if p.1 = id then (id, e) else p)
  else l ++ [(id, e)]

/-- Parsing of one manifest body line (wau.py lines 46-53): cols = line.split();
id = int(cols[0]); install_alpha = int(cols[1]) != 0; version = cols[2].
Errors reproduce Python's exception order: IndexError for a missing column,
ValueError for a non-numeric one. -/
def parseEntryLine (line : String) : Except PyErr (Int × AddonEntry) :=
  match pySplit line with
  | [] => .error .indexError
  | c0 :: rest =>
    match pyInt? c0 with
    | none => .error .valueError
    | some id =>
      match rest with
      | [] => .error .indexError
      | c1 :: rest2 =>
        match pyInt? c1 with
        | none => .error .valueError
        | some flag =>
          match rest2 with
          | [] => .error .indexError
          | c2 :: _ => .ok (id, ⟨flag != 0, ⟨c2⟩⟩)

/-- Loop over the manifest body lines, filling the addons dict. -/
def parseManifestBody : List (Int × AddonEntry) → List String → Except PyErr (List (Int × AddonEntry))
  | acc, [] => .ok acc
  | acc, line :: rest =>
    match parseEntryLine line with
    | .error e => .error e
    | .ok (id, ent) => parseManifestBody (insertAddon acc id ent) rest

/-- Manifest path built by WAU_Manifest.__init__ (wau.py line 41). -/
def manifestPathOf (base_path : String) : String := base_path ++ "/wau_manifest.txt"

/-- WAU_Manifest.__init__ / load_manifest (wau.py lines 38-56, 98-104).
file = none models a missing manifest file: the OSError from open() is
caught, addons stays empty and self.version is never assigned. With a
present file, the first line (rstripped) is the version stamp and every
further line is parsed as an entry; parse exceptions are not caught. -/
def loadManifest (base_path : String) (file : Option (List String)) : Except PyErr WAU_Manifest :=
  match file with
  | none => .ok ⟨manifestPathOf base_path, none, []⟩
  | some lines =>
    match parseManifestBody [] lines.tail with
    | .error e => .error e
    | .ok addons => .ok ⟨manifestPathOf base_path, some (rstrip (lines.headD "")), addons⟩

/-- WAU_Manifest.update_version (wau.py lines 58-60): mutate the version
field of the entry for addon_id; a missing key raises KeyError. -/
def update_version (m : WAU_Manifest) (addon_id : Int) (version : String) : Except PyErr WAU_Manifest :=
  match lookupAddon m.addons addon_id with
  | none => .error .keyError
  | some _ =>
    .ok { m with addons := m.addons.map (fun p => if p.1 = addon_id then (p.1, { p.2 with version := version }) else p) }

/-- Text of one committed entry line (wau.py line 69). -/
def entryLine (p : Int × AddonEntry) : String :=
  intRepr p.1 ++ " " ++ (if p.2.install_alpha then "1" else "0") ++ " " ++ p.2.version

/-- Lines written by WAU_Manifest.commit for stamp v: the version line, then
one line per addons entry in dict order (wau.py lines 62-69). -/
def manifestLines (m : WAU_Manifest) (v : String) : List String :=
  v :: m.addons.map entryLine

/-- WAU_Manifest.commit, viewed as the lines it writes. Reading self.version
when the attribute was never assigned raises AttributeError. -/
def commitLines (m : WAU_Manifest) : Except PyErr (List String) :=
  match m.version with
  | none => .error .attributeError
  | some v => .ok (manifestLines m v)

/-- One element of addon_info["latestFiles"]. Only the four fields the
orchestration logic reads are modelled; fileName, downloadUrl and modules
feed only the abstract download/erase/extract collaborators. fileDate is
the parsed timestamp. -/
structure Release where
  gameVersionFlavor : String
  releaseType : Int
  fileDate : Int
  displayName : String
deriving DecidableEq

/-- Result of TwitchAppAPI.get_addon_info: display name plus release list. -/
structure AddonInfo where
  name : String
  latestFiles : List Release
deriving DecidableEq

/-- Loop body of get_latest_file (wau.py lines 120-133): skip releases of the
wrong flavor; skip non-stable releases (releaseType different from 1) unless
install_alpha; keep the release with the strictly greatest date, first seen
winning ties. -/
def getLatestFileLoop : Option Release → List Release → Bool → String → Option Release
  | latest, [], _, _ => latest
  | latest, f :: rest, install_alpha, flavor =>
    if f.gameVersionFlavor ≠ flavor then getLatestFileLoop latest rest install_alpha flavor
    else if install_alpha = false ∧ f.releaseType ≠ 1 then getLatestFileLoop latest rest install_alpha flavor
    else
      match latest with
      | none => getLatestFileLoop (some f) rest install_alpha flavor
      | some g =>
        if g.fileDate < f.fileDate then getLatestFileLoop (some f) rest install_alpha flavor
        else getLatestFileLoop latest rest install_alpha flavor

/-- get_latest_file (wau.py lines 106-135). The api argument of the source is
unused by the function body and omitted. -/
def get_latest_file (addon_info : AddonInfo) (install_alpha : Bool) (game_version_flavor : String) : Option Release :=
  getLatestFileLoop none addon_info.latestFiles install_alpha game_version_flavor

/-- Single-character substitution performed by get_version. -/
def replaceSpace (c : Char) : Char := if c = ' ' then '_' else c

/-- get_version (wau.py lines 137-138): displayName.replace(' ', '_'); a
one-character pattern and replacement make str.replace a per-character map. -/
def get_version (release : Release) : String :=
  ⟨release.displayName.data.map replaceSpace⟩

/-- Environment seen by one worker thread: the result of its
get_addon_info call and the success of the external download and
extraction collaborators. -/
structure AddonEnv where
  info : Except PyErr AddonInfo
  downloadOk : Bool
  extractOk : Bool

/-- End state reached by one worker thread (Failed is downloadFailed or
crashed; crashed is an uncaught exception killing only that thread). -/
inductive WorkerOutcome where
  | upToDate
  | updated (version : String)
  | downloadFailed
  | crashed (err : PyErr)
deriving DecidableEq

/-- True exactly for the outcome of a worker that committed an update. -/
def WorkerOutcome.isUpdated : WorkerOutcome → Bool
  | .updated _ => true
  | _ => false

/-- Result of running one worker: manifest and manifest-file state after the
thread finished, its end state, and how many get_addon_info queries it made. -/
structure StepResult where
  manifest : WAU_Manifest
  fs : Option (List String)
  outcome : WorkerOutcome
  queries : Nat
deriving DecidableEq

/-- process_addon (wau.py lines 181-201) for one addon. Reads the entry
(KeyError kills the thread), queries the catalog (an api error kills the
thread), selects the latest file; a none selection crashes inside
get_version, because subscripting None raises TypeError (line 138 applied
to the result of line 186). If the derived version differs from the
installed one: a failed download is logged and the thread returns with the
ledger untouched; a failed extraction kills the thread; on success,
update_version and commit run under the manifest lock. -/
def processAddon (mf : WAU_Manifest) (fs : Option (List String)) (env : AddonEnv) (addon_id : Int) (game_flavor : String) : StepResult :=
  match lookupAddon mf.addons addon_id with
  | none => ⟨mf, fs, .crashed .keyError, 0⟩
  | some entry =>
    match env.info with
    | .error e => ⟨mf, fs, .crashed e, 1⟩
    | .ok addon_info =>
      match get_latest_file addon_info entry.install_alpha game_flavor with
      | none => ⟨mf, fs, .crashed .typeError, 1⟩
      | some latest_file =>
        if get_version latest_file ≠ entry.version then
          if env.downloadOk then
            if env.extractOk then
              match update_version mf addon_id (get_version latest_file) with
              | .error e => ⟨mf, fs, .crashed e, 1⟩
              | .ok mf1 =>
                match commitLines mf1 with
                | .error e => ⟨mf1, fs, .crashed e, 1⟩
                | .ok written => ⟨mf1, some written, .updated (get_version latest_file), 1⟩
            else ⟨mf, fs, .crashed .badZipFile, 1⟩
          else ⟨mf, fs, .downloadFailed, 1⟩
        else ⟨mf, fs, .upToDate, 1⟩

/-- Aggregate result of all worker threads. -/
structure WorkersResult where
  manifest : WAU_Manifest
  fs : Option (List String)
  outcomes : List (Int × WorkerOutcome)
  queries : Nat
deriving DecidableEq

/-- Running one worker per addon id (wau.py lines 283-290). Commits are
serialized by the manifest lock; the model runs the workers in spawn order,
which realises one admissible serialization. Workers are independent up to
the shared manifest: each reads and writes only its own entry, so every
interleaving yields the same outcomes and the same final entry map. -/
def runWorkers (game_flavor : String) (env : Int → AddonEnv) : WAU_Manifest → Option (List String) → List Int → WorkersResult
  | mf, fs, [] => ⟨mf, fs, [], 0⟩
  | mf, fs, id :: rest =>
    let s := processAddon mf fs (env id) id game_flavor
    let r := runWorkers game_flavor env s.manifest s.fs rest
    ⟨r.manifest, r.fs, (id, s.outcome) :: r.outcomes, s.queries + r.queries⟩

/-- External inputs of one whole run: the get_addon_database_version result
and each addon's per-worker environment. -/
structure RunEnv where
  apiVersion : Except PyErr String
  perAddon : Int → AddonEnv

/-- Observable result of a run that terminated normally. -/
structure RunResult where
  exitCode : Nat
  manifest : WAU_Manifest
  fs : Option (List String)
  outcomes : List (Int × WorkerOutcome)
  queries : Nat
deriving DecidableEq

/-- Module toplevel of wau.py (lines 266-293): load the manifest, query the
catalog version, compare it against manifest.version (an unset attribute
raises AttributeError here), exit 0 on the fast path, otherwise overwrite
the in-memory stamp and run one worker per addon, then exit 0. An error
value models an uncaught exception aborting the whole run. -/
def run (base_path : String) (fs0 : Option (List String)) (forced_update : Bool) (game_flavor : String) (env : RunEnv) : Except PyErr RunResult :=
  match loadManifest base_path fs0 with
  | .error e => .error e
  | .ok manifest =>
    match env.apiVersion with
    | .error e => .error e
    | .ok api_db_version =>
      match manifest.version with
      | none => .error .attributeError
      | some v =>
        if api_db_version = v ∧ forced_update = false then
          .ok ⟨0, manifest, fs0, [], 0⟩
        else
          let manifest1 := { manifest with version := some api_db_version }
          let r := runWorkers game_flavor env.perAddon manifest1 fs0 (manifest1.addons.map Prod.fst)
          .ok ⟨0, r.manifest, r.fs, r.outcomes, r.queries⟩

/-- Filesystem operations; the trace view of WAU_Manifest.commit. -/
inductive FsOp where
  | openTrunc (path : String)
  | writeStr (s : String)
  | closeFile
  | renameFile (src dst : String)
deriving DecidableEq

/-- True only for a rename operation. -/
def FsOp.isRename : FsOp → Bool
  | .renameFile _ _ => true
  | _ => false

/-- WAU_Manifest.commit (wau.py lines 62-69) as the exact sequence of file
operations it performs: open(manifest_path, "w") truncates the target in
place, then one write per line, then close. With the version attribute
unset, the open still happens before format() raises AttributeError. -/
def commitTrace (m : WAU_Manifest) : List FsOp :=
  match m.version with
  | none => [.openTrunc m.manifest_path]
  | some v => .openTrunc m.manifest_path :: (manifestLines m v).map (fun l => .writeStr (l ++ "\n")) ++ [.closeFile]

/-- Content of the file at target after one operation of a commit trace
(all writes of a commit go to the file its open call truncated). -/
def applyOp (target : String) (content : Option String) : FsOp → Option String
  | .openTrunc p => if p = target then some "" else content
  | .writeStr s =>
    match content with
    | some c => some (c ++ s)
    | none => none
  | .closeFile => content
  | .renameFile _ _ => content

/-- Content of the file at target after a whole trace. -/
def finalContent (target : String) (c0 : Option String) (ops : List FsOp) : Option String :=
  ops.foldl (applyOp target) c0

/-- Contents of the file at target visible to a concurrent reader after each
operation of a trace. -/
def statesDuring (target : String) (c0 : Option String) : List FsOp → List (Option String)
  | [] => []
  | op :: ops =>
    let c1 := applyOp target c0 op
    c1 :: statesDuring target c1 ops

/-- Concatenation of "\n"-terminated lines, the text a commit leaves behind. -/
def linesText : List String → String
  | [] => ""
  | l :: ls => l ++ "\n" ++ linesText ls

/-- Composition checked by the round-trip claim: commit the manifest, then
load it back, observing the reloaded stamp and entry map. -/
def roundTrip (base_path : String) (m : WAU_Manifest) : Except PyErr (Option String × List (Int × AddonEntry)) :=
  match commitLines m with
  | .error e => .error e
  | .ok written =>
    match loadManifest base_path (some written) with
    | .error e => .error e
    | .ok mf => .ok (mf.version, mf.addons)

/-- Fuel does not matter once it exceeds the number being converted. -/
theorem natDigitsRevGo_irrel : ∀ f1 f2 n, n < f1 → n < f2 → natDigitsRevGo f1 n = natDigitsRevGo f2 n := by
  intro f1
  induction f1 with
  | zero => intro f2 n h1 _; omega
  | succ g ih =>
    intro f2 n h1 h2
    cases f2 with
    | zero => omega
    | succ h =>
      simp only [natDigitsRevGo]
      by_cases hn : n < 10
      · simp [hn]
      · have hdiv : n / 10 < n := Nat.div_lt_self (by omega) (by omega)
        simp only [if_neg hn]
        rw [ih h (n / 10) (by omega) (by omega)]

/-- Unfolding equation of natDigitsRev. -/
theorem natDigitsRev_unfold (n : Nat) :
    natDigitsRev n = if n < 10 then [decChar n] else decChar (n % 10) :: natDigitsRev (n / 10) := by
  have e : natDigitsRev n = if n < 10 then [decChar n] else decChar (n % 10) :: natDigitsRevGo n (n / 10) := rfl
  by_cases hn : n < 10
  · rw [e, if_pos hn, if_pos hn]
  · have hdiv : n / 10 < n := Nat.div_lt_self (by omega) (by omega)
    rw [e, if_neg hn, if_neg hn,
      natDigitsRevGo_irrel n (n / 10 + 1) (n / 10) (by omega) (by omega)]
    rfl

/-- decChar of a digit value parses back to itself. -/
theorem charDigitVal_decChar (d : Nat) (h : d < 10) : charDigitVal (decChar d) = some d := by
  interval_cases d <;> rfl

/-- A character accepted as a digit is not whitespace, not a minus sign, and
its value is below 10. -/
theorem charDigitVal_props {c : Char} {d : Nat} (h : charDigitVal c = some d) :
    isPySpace c = false ∧ c ≠ '-' ∧ d < 10 := by
  unfold charDigitVal at h
  split_ifs at h <;> simp_all <;> subst_vars <;> decide

/-- Every character produced by natDigitsRev is a decimal digit. -/
theorem natDigitsRev_digits (n : Nat) : ∀ c ∈ natDigitsRev n, ∃ d, charDigitVal c = some d := by
  induction n using Nat.strong_induction_on with
  | _ n ih =>
    rw [natDigitsRev_unfold]
    by_cases hn : n < 10
    · simp only [if_pos hn, List.mem_singleton]
      intro c hc
      exact ⟨n, hc ▸ charDigitVal_decChar n hn⟩
    · have hdiv : n / 10 < n := Nat.div_lt_self (by omega) (by omega)
      simp only [if_neg hn, List.mem_cons]
      rintro c (rfl | hc)
      · exact ⟨n % 10, charDigitVal_decChar (n % 10) (by omega)⟩
      · exact ih (n / 10) hdiv c hc

/-- natDigitsRev never returns the empty list. -/
theorem natDigitsRev_ne_nil (n : Nat) : natDigitsRev n ≠ [] := by
  rw [natDigitsRev_unfold]
  split <;> simp

/-- The decimal parser loop distributes over list append. -/
theorem pyNatGo_append (xs ys : List Char) (acc : Nat) :
    pyNatGo acc (xs ++ ys) = (pyNatGo acc xs).bind (fun a => pyNatGo a ys) := by
  induction xs generalizing acc with
  | nil => simp [pyNatGo]
  | cons c cs ih =>
    simp only [List.cons_append, pyNatGo]
    cases charDigitVal c with
    | none => simp
    | some d => simp [ih]

/-- Parsing the reversed digit list of n yields n shifted onto the
accumulator. -/
theorem pyNatGo_digits (n : Nat) :
    ∀ acc, pyNatGo acc (natDigitsRev n).reverse = some (acc * 10 ^ (natDigitsRev n).length + n) := by
  induction n using Nat.strong_induction_on with
  | _ n ih =>
    intro acc
    by_cases hn : n < 10
    · rw [natDigitsRev_unfold, if_pos hn]
      simp [pyNatGo, charDigitVal_decChar n hn]
    · have hdiv : n / 10 < n := Nat.div_lt_self (by omega) (by omega)
      rw [natDigitsRev_unfold, if_neg hn]
      simp only [List.reverse_cons, List.length_cons]
      rw [pyNatGo_append, ih (n / 10) hdiv acc]
      simp only [Option.some_bind, pyNatGo, charDigitVal_decChar (n % 10) (by omega : n % 10 < 10)]
      congr 1
      rw [pow_succ]
      have hexp : (acc * 10 ^ (natDigitsRev (n / 10)).length + n / 10) * 10 + n % 10
          = acc * (10 ^ (natDigitsRev (n / 10)).length * 10) + (n / 10 * 10 + n % 10) := by ring
      rw [hexp]
      congr 1
      omega

/-- Python int() inverts the decimal printer on naturals. -/
theorem pyNat_natRepr (n : Nat) : pyNat? (natRepr n).data = some n := by
  have hne : (natDigitsRev n).reverse ≠ [] := by
    simp [List.reverse_eq_nil_iff, natDigitsRev_ne_nil n]
  show pyNat? (natDigitsRev n).reverse = some n
  cases h : (natDigitsRev n).reverse with
  | nil => exact absurd h hne
  | cons c cs =>
    have := pyNatGo_digits n 0
    rw [h] at this
    simpa [pyNat?] using this

/-- No character of a printed integer is whitespace. -/
theorem intRepr_no_ws (k : Int) : ∀ c ∈ (intRepr k).data, isPySpace c = false := by
  have hnat : ∀ n : Nat, ∀ c ∈ (natDigitsRev n).reverse, isPySpace c = false := by
    intro n c hc
    rw [List.mem_reverse] at hc
    obtain ⟨d, hd⟩ := natDigitsRev_digits n c hc
    exact (charDigitVal_props hd).1
  cases k with
  | ofNat n => exact hnat n
  | negSucc n =>
    intro c hc
    have hd : (intRepr (Int.negSucc n)).data = '-' :: (natDigitsRev (n + 1)).reverse := rfl
    rw [hd, List.mem_cons] at hc
    rcases hc with hc | hc
    · subst hc
      rfl
    · exact hnat (n + 1) c hc

/-- A printed integer is never the empty string. -/
theorem intRepr_ne_nil (k : Int) : (intRepr k).data ≠ [] := by
  cases k with
  | ofNat n =>
    show (natDigitsRev n).reverse ≠ []
    simp [List.reverse_eq_nil_iff, natDigitsRev_ne_nil n]
  | negSucc n => simp [intRepr, String.data_append]

/-- Python int() inverts the decimal printer on integers. -/
theorem pyInt_intRepr (k : Int) : pyInt? (intRepr k).data = some k := by
  cases k with
  | ofNat n =>
    have hp := pyNat_natRepr n
    cases h : (natRepr n).data with
    | nil => exact absurd h (intRepr_ne_nil (.ofNat n))
    | cons c cs =>
      have hdigit : ∃ d, charDigitVal c = some d := by
        apply natDigitsRev_digits n c
        rw [← List.mem_reverse]
        show c ∈ (natRepr n).data
        simp [h]
      obtain ⟨d, hd⟩ := hdigit
      have hdash : c ≠ '-' := (charDigitVal_props hd).2.1
      show pyInt? (natRepr n).data = some (.ofNat n)
      rw [h] at hp ⊢
      simp only [pyInt?, if_neg hdash, hp, Option.map_some]
      rfl
  | negSucc n =>
    have hp := pyNat_natRepr (n + 1)
    have hd : (intRepr (Int.negSucc n)).data = '-' :: (natRepr (n + 1)).data := rfl
    rw [hd]
    simp [pyInt?, hp, Int.negSucc_eq]

/-- Consuming a whitespace-free token just accumulates it reversed. -/
theorem pySplitGo_token (t : List Char) (ht : ∀ c ∈ t, isPySpace c = false) :
    ∀ cs acc, pySplitGo (t ++ cs) acc = pySplitGo cs (t.reverse ++ acc) := by
  induction t with
  | nil => intro cs acc; simp
  | cons c t ih =>
    intro cs acc
    have hc : isPySpace c = false := ht c (List.mem_cons_self c t)
    simp only [List.cons_append, pySplitGo, hc, Bool.false_eq_true, if_false]
    show pySplitGo (t ++ cs) (c :: acc) = pySplitGo cs ((c :: t).reverse ++ acc)
    rw [ih (fun x hx => ht x (List.mem_cons_of_mem c hx)) cs (c :: acc)]
    simp [List.append_assoc]

/-- A space flushes a nonempty accumulator as one token. -/
theorem pySplitGo_space (cs : List Char) (acc : List Char) (h : acc ≠ []) :
    pySplitGo (' ' :: cs) acc = acc.reverse :: pySplitGo cs [] := by
  simp [pySplitGo, isPySpace, h]

/-- Splitting three space-separated whitespace-free nonempty tokens. -/
theorem pySplit_three (t1 t2 t3 : List Char)
    (h1 : t1 ≠ []) (h2 : t2 ≠ []) (h3 : t3 ≠ [])
    (w1 : ∀ c ∈ t1, isPySpace c = false) (w2 : ∀ c ∈ t2, isPySpace c = false)
    (w3 : ∀ c ∈ t3, isPySpace c = false) :
    pySplitGo (t1 ++ ' ' :: (t2 ++ ' ' :: t3)) [] = [t1, t2, t3] := by
  rw [pySplitGo_token t1 w1, List.append_nil,
    pySplitGo_space _ _ (by simpa using h1), List.reverse_reverse,
    pySplitGo_token t2 w2, List.append_nil,
    pySplitGo_space _ _ (by simpa using h2), List.reverse_reverse]
  have hend : pySplitGo (t3 ++ []) [] = pySplitGo [] t3.reverse := by
    simpa using pySplitGo_token t3 w3 [] []
  rw [← List.append_nil t3, hend]
  simp [pySplitGo, h3]

/-- rstrip is the identity on whitespace-free strings. -/
theorem rstrip_eq_self (s : String) (h : ∀ c ∈ s.data, isPySpace c = false) : rstrip s = s := by
  apply String.ext
  show (s.data.reverse.dropWhile isPySpace).reverse = s.data
  cases hr : s.data.reverse with
  | nil =>
    have : s.data = [] := by simpa using congrArg List.reverse hr
    simp [List.dropWhile, this]
  | cons c cs =>
    have hc : isPySpace c = false := by
      apply h
      rw [← List.mem_reverse, hr]
      exact List.mem_cons_self c cs
    rw [List.dropWhile_cons_of_neg (by simp [hc]), ← hr, List.reverse_reverse]

/-- Decomposition of a committed entry line into its three tokens. -/
theorem entryLine_data (p : Int × AddonEntry) :
    (entryLine p).data
      = (intRepr p.1).data ++ ' ' :: ((if p.2.install_alpha then "1" else "0").data ++ ' ' :: p.2.version.data) := by
  show (intRepr p.1 ++ " " ++ (if p.2.install_alpha then "1" else "0") ++ " " ++ p.2.version).data = _
  simp only [String.data_append]
  cases p.2.install_alpha <;> simp

/-- Parsing a committed entry line recovers the entry, provided the version
token is nonempty and whitespace-free. -/
theorem parseEntryLine_entryLine (k : Int) (e : AddonEntry)
    (hne : e.version.data ≠ []) (hws : ∀ c ∈ e.version.data, isPySpace c = false) :
    parseEntryLine (entryLine (k, e)) = .ok (k, e) := by
  have hsplit : pySplit (entryLine (k, e))
      = [(intRepr k).data, (if e.install_alpha then "1" else "0").data, e.version.data] := by
    show pySplitGo (entryLine (k, e)).data [] = _
    rw [entryLine_data]
    exact pySplit_three _ _ _ (intRepr_ne_nil k)
      (by cases e.install_alpha <;> simp) hne
      (intRepr_no_ws k)
      (by cases e.install_alpha <;> (intro c hc; simp at hc; subst hc; rfl)) hws
  unfold parseEntryLine
  rw [hsplit]
  have hflag : pyInt? (if e.install_alpha then "1" else "0").data
      = some (if e.install_alpha then 1 else 0) := by
    cases e.install_alpha <;> rfl
  simp only [pyInt_intRepr k, hflag]
  cases e with
  | mk alpha ver =>
    cases alpha <;> rfl

/-- lookupAddon misses exactly when the key is absent. -/
theorem lookupAddon_eq_none_iff (l : List (Int × AddonEntry)) (id : Int) :
    lookupAddon l id = none ↔ id ∉ l.map Prod.fst := by
  induction l with
  | nil => simp [lookupAddon]
  | cons p rest ih =>
    simp only [lookupAddon, List.map_cons, List.mem_cons]
    by_cases h : p.1 = id
    · subst h
      simp
    · rw [if_neg h, ih]
      constructor
      · rintro hni (rfl | hmem)
        · exact h rfl
        · exact hni hmem
      · intro hni hmem
        exact hni (Or.inr hmem)

/-- Looking up past a prefix that misses. -/
theorem lookupAddon_append (a b : List (Int × AddonEntry)) (id : Int)
    (h : lookupAddon a id = none) : lookupAddon (a ++ b) id = lookupAddon b id := by
  induction a with
  | nil => rfl
  | cons p rest ih =>
    simp only [lookupAddon] at h
    by_cases hp : p.1 = id
    · rw [if_pos hp] at h
      exact absurd h (by simp)
    · rw [if_neg hp] at h
      show lookupAddon (p :: (rest ++ b)) id = _
      simp only [lookupAddon, if_neg hp]
      exact ih h

/-- Inserting a fresh key appends it. -/
theorem insertAddon_fresh (l : List (Int × AddonEntry)) (id : Int) (e : AddonEntry)
    (h : lookupAddon l id = none) : insertAddon l id e = l ++ [(id, e)] := by
  simp [insertAddon, h]

/-- insertAddon preserves distinctness of keys. -/
theorem insertAddon_nodup (l : List (Int × AddonEntry)) (id : Int) (e : AddonEntry)
    (h : (l.map Prod.fst).Nodup) : ((insertAddon l id e).map Prod.fst).Nodup := by
  unfold insertAddon
  by_cases hl : (lookupAddon l id).isSome
  · rw [if_pos hl]
    have hkeys : (l.map (fun p => if p.1 = id then (id, e) else p)).map Prod.fst = l.map Prod.fst := by
      rw [List.map_map]
      apply List.map_congr_left
      intro p _
      by_cases hp : p.1 = id
      · simp [hp]
      · simp [hp]
    rw [hkeys]
    exact h
  · rw [if_neg hl]
    have hid : id ∉ l.map Prod.fst := by
      rw [← lookupAddon_eq_none_iff]
      exact Option.not_isSome_iff_eq_none.mp hl
    simp only [List.map_append, List.map_cons, List.map_nil]
    rw [List.nodup_append]
    refine ⟨h, List.nodup_singleton id, ?_⟩
    intro x hx
    simp only [List.mem_singleton]
    intro hxid
    subst hxid
    exact hid hx

/-- Feeding committed entry lines to the body parser recovers the entries,
provided keys are distinct and fresh for the accumulator and each version
token is nonempty and whitespace-free. -/
theorem parseManifestBody_map (l : List (Int × AddonEntry)) :
    ∀ acc, (∀ p ∈ l, p.2.version.data ≠ [] ∧ ∀ c ∈ p.2.version.data, isPySpace c = false) →
    (l.map Prod.fst).Nodup →
    (∀ p ∈ l, lookupAddon acc p.1 = none) →
    parseManifestBody acc (l.map entryLine) = .ok (acc ++ l) := by
  induction l with
  | nil =>
    intro acc _ _ _
    simp [parseManifestBody]
  | cons p rest ih =>
    intro acc hver hnd hfresh
    obtain ⟨k, e⟩ := p
    have hv := hver (k, e) (List.mem_cons_self _ _)
    have hline := parseEntryLine_entryLine k e hv.1 hv.2
    simp only [List.map_cons, parseManifestBody, hline]
    rw [insertAddon_fresh acc k e (hfresh (k, e) (List.mem_cons_self _ _))]
    have hkmem : k ∉ rest.map Prod.fst := by
      have := hnd
      simp only [List.map_cons, List.nodup_cons] at this
      exact this.1
    rw [ih (acc ++ [(k, e)])
      (fun q hq => hver q (List.mem_cons_of_mem _ hq))
      (by
        have := hnd
        simp only [List.map_cons, List.nodup_cons] at this
        exact this.2)
      (fun q hq => by
        have hq1 : lookupAddon acc q.1 = none := hfresh q (List.mem_cons_of_mem _ hq)
        rw [lookupAddon_append acc [(k, e)] q.1 hq1]
        have hkq : k ≠ q.1 := by
          intro hkq
          apply hkmem
          rw [hkq]
          exact List.mem_map_of_mem Prod.fst hq
        simp [lookupAddon, hkq])]
    simp

/-- The body parser keeps entry keys distinct. -/
theorem parseManifestBody_nodup :
    ∀ (lines : List String) (acc out : List (Int × AddonEntry)),
    (acc.map Prod.fst).Nodup → parseManifestBody acc lines = .ok out →
    (out.map Prod.fst).Nodup := by
  intro lines
  induction lines with
  | nil =>
    intro acc out h hp
    simp only [parseManifestBody, Except.ok.injEq] at hp
    rw [← hp]
    exact h
  | cons line rest ih =>
    intro acc out h hp
    simp only [parseManifestBody] at hp
    cases he : parseEntryLine line with
    | error e =>
      rw [he] at hp
      exact Except.noConfusion hp
    | ok pr =>
      rw [he] at hp
      obtain ⟨id, ent⟩ := pr
      exact ih (insertAddon acc id ent) out (insertAddon_nodup acc id ent h) hp

/-- Every loaded manifest has distinct entry keys (it mirrors a Python dict). -/
theorem loadManifest_nodup (base_path : String) (file : Option (List String)) (mf : WAU_Manifest)
    (h : loadManifest base_path file = .ok mf) : (mf.addons.map Prod.fst).Nodup := by
  cases file with
  | none =>
    simp only [loadManifest, Except.ok.injEq] at h
    rw [← h]
    exact List.nodup_nil
  | some lines =>
    simp only [loadManifest] at h
    cases hp : parseManifestBody [] lines.tail with
    | error e =>
      rw [hp] at h
      exact Except.noConfusion h
    | ok addons =>
      rw [hp] at h
      simp only [Except.ok.injEq] at h
      rw [← h]
      exact parseManifestBody_nodup lines.tail [] addons List.nodup_nil hp

/-- Releases surviving the two filters of get_latest_file: exact flavor
match, and stable channel (releaseType 1) unless alpha is allowed. -/
def survivors (rs : List Release) (install_alpha : Bool) (flavor : String) : List Release :=
  rs.filter (fun f => f.gameVersionFlavor == flavor && (install_alpha || f.releaseType == 1))

/-- One step of the running maximum kept by get_latest_file: replace the
candidate only on a strictly later date. -/
def pickLater (latest : Option Release) (f : Release) : Option Release :=
  match latest with
  | none => some f
  | some g => if g.fileDate < f.fileDate then some f else some g

/-- x carries a maximal date within l. -/
def isMaxIn (l : List Release) (x : Release) : Bool :=
  l.all (fun y => decide (y.fileDate ≤ x.fileDate))

/-- The selector loop is the fold of pickLater over the surviving releases. -/
theorem getLatestFileLoop_eq_foldl (rs : List Release) :
    ∀ (latest : Option Release) (a : Bool) (fl : String),
    getLatestFileLoop latest rs a fl = (survivors rs a fl).foldl pickLater latest := by
  induction rs with
  | nil => intro latest a fl; rfl
  | cons f rs ih =>
    intro latest a fl
    by_cases hfl : f.gameVersionFlavor = fl
    · by_cases hkeep : a = true ∨ f.releaseType = 1
      · have hcond : (f.gameVersionFlavor == fl && (a || f.releaseType == 1)) = true := by
          rcases hkeep with h | h <;> simp [hfl, h]
        have hsurv : survivors (f :: rs) a fl = f :: survivors rs a fl := by
          simp [survivors, List.filter_cons, hcond]
        have hnot2 : ¬(a = false ∧ f.releaseType ≠ 1) := by
          rcases hkeep with h | h <;> simp [h]
        have hloop : getLatestFileLoop latest (f :: rs) a fl
            = getLatestFileLoop (pickLater latest f) rs a fl := by
          cases latest with
          | none =>
            simp only [getLatestFileLoop]
            rw [if_neg (by simp [hfl]), if_neg hnot2]
            rfl
          | some g =>
            simp only [getLatestFileLoop]
            rw [if_neg (by simp [hfl]), if_neg hnot2]
            by_cases hgf : g.fileDate < f.fileDate <;> simp [pickLater, hgf]
        rw [hloop, ih (pickLater latest f) a fl, hsurv, List.foldl_cons]
      · have ha : a = false := by
          cases a with
          | false => rfl
          | true => exact absurd (Or.inl rfl) hkeep
        have hrt : f.releaseType ≠ 1 := fun h => hkeep (Or.inr h)
        have hcond : (f.gameVersionFlavor == fl && (a || f.releaseType == 1)) = false := by
          subst ha
          simp [hrt]
        have hsurv : survivors (f :: rs) a fl = survivors rs a fl := by
          simp [survivors, List.filter_cons, hcond]
        have hloop : getLatestFileLoop latest (f :: rs) a fl = getLatestFileLoop latest rs a fl := by
          simp only [getLatestFileLoop]
          rw [if_neg (by simp [hfl]), if_pos ⟨ha, hrt⟩]
        rw [hloop, ih latest a fl, hsurv]
    · have hcond : (f.gameVersionFlavor == fl && (a || f.releaseType == 1)) = false := by
        simp [hfl]
      have hsurv : survivors (f :: rs) a fl = survivors rs a fl := by
        simp [survivors, List.filter_cons, hcond]
      have hloop : getLatestFileLoop latest (f :: rs) a fl = getLatestFileLoop latest rs a fl := by
        simp only [getLatestFileLoop]
        rw [if_pos hfl]
      rw [hloop, ih latest a fl, hsurv]

/-- Folding pickLater from a seed finds the first date-maximal element of
the seeded list. -/
theorem foldl_pickLater_eq_find (l : List Release) :
    ∀ g : Release, l.foldl pickLater (some g) = (g :: l).find? (isMaxIn (g :: l)) := by
  induction l with
  | nil =>
    intro g
    have hg : isMaxIn [g] g = true := by simp [isMaxIn]
    simp [List.find?_cons_of_pos _ hg]
  | cons f l ih =>
    intro g
    rw [List.foldl_cons]
    by_cases hgf : g.fileDate < f.fileDate
    · have hpick : pickLater (some g) f = some f := by simp [pickLater, hgf]
      rw [hpick, ih f]
      have hgskip : ¬ isMaxIn (g :: f :: l) g = true := by
        rw [isMaxIn, List.all_eq_true]
        intro h
        have hf := h f (by simp)
        simp only [decide_eq_true_eq] at hf
        omega
      conv_rhs => rw [List.find?_cons_of_neg _ hgskip]
      have hfun : isMaxIn (f :: l) = isMaxIn (g :: f :: l) := by
        funext x
        simp only [isMaxIn, List.all_cons, Bool.and_assoc]
        by_cases hfx : f.fileDate ≤ x.fileDate
        · have hgx : g.fileDate ≤ x.fileDate := by omega
          simp [hfx, hgx]
        · simp [hfx]
      rw [hfun]
    · have hpick : pickLater (some g) f = some g := by simp [pickLater, hgf]
      have hfg : f.fileDate ≤ g.fileDate := by omega
      rw [hpick, ih g]
      by_cases hc : l.all (fun y => decide (y.fileDate ≤ g.fileDate))
      · have hp1 : isMaxIn (g :: l) g = true := by
          simp only [isMaxIn, List.all_cons]
          simp [hc]
        have hp2 : isMaxIn (g :: f :: l) g = true := by
          simp only [isMaxIn, List.all_cons]
          simp [hfg, hc]
        rw [List.find?_cons_of_pos _ hp1, List.find?_cons_of_pos _ hp2]
      · have hex : ∃ y ∈ l, g.fileDate < y.fileDate := by
          rw [List.all_eq_true] at hc
          push_neg at hc
          obtain ⟨y, hy, hyc⟩ := hc
          refine ⟨y, hy, ?_⟩
          have hyc2 : ¬ y.fileDate ≤ g.fileDate := by simpa using hyc
          omega
        obtain ⟨y, hy, hyg⟩ := hex
        have hp1 : ¬ isMaxIn (g :: l) g = true := by
          rw [isMaxIn, List.all_eq_true]
          intro h
          have := h y (List.mem_cons_of_mem _ hy)
          simp only [decide_eq_true_eq] at this
          omega
        have hp2 : ¬ isMaxIn (g :: f :: l) g = true := by
          rw [isMaxIn, List.all_eq_true]
          intro h
          have := h y (List.mem_cons_of_mem _ (List.mem_cons_of_mem _ hy))
          simp only [decide_eq_true_eq] at this
          omega
        have hpf : ¬ isMaxIn (g :: f :: l) f = true := by
          rw [isMaxIn, List.all_eq_true]
          intro h
          have := h y (List.mem_cons_of_mem _ (List.mem_cons_of_mem _ hy))
          simp only [decide_eq_true_eq] at this
          omega
        conv_lhs => rw [List.find?_cons_of_neg _ hp1]
        conv_rhs => rw [List.find?_cons_of_neg _ hp2, List.find?_cons_of_neg _ hpf]
        have hfun : isMaxIn (g :: l) = isMaxIn (g :: f :: l) := by
          funext x
          simp only [isMaxIn, List.all_cons, Bool.and_assoc]
          by_cases hgx : g.fileDate ≤ x.fileDate
          · have hfx : f.fileDate ≤ x.fileDate := by omega
            simp [hgx, hfx]
          · simp [hgx]
        rw [hfun]

/-- The selector equals first-maximum search over the surviving releases. -/
theorem get_latest_file_eq_find (info : AddonInfo) (a : Bool) (fl : String) :
    get_latest_file info a fl
      = (survivors info.latestFiles a fl).find? (isMaxIn (survivors info.latestFiles a fl)) := by
  show getLatestFileLoop none info.latestFiles a fl = _
  rw [getLatestFileLoop_eq_foldl]
  cases h : survivors info.latestFiles a fl with
  | nil => rfl
  | cons f l =>
    rw [List.foldl_cons]
    have hpick : pickLater none f = some f := rfl
    rw [hpick]
    exact foldl_pickLater_eq_find l f

/-- A nonempty release list contains a date-maximal element. -/
theorem exists_max_date (l : List Release) (h : l ≠ []) :
    ∃ x ∈ l, ∀ y ∈ l, y.fileDate ≤ x.fileDate := by
  induction l with
  | nil => exact absurd rfl h
  | cons f l ih =>
    by_cases hl : l = []
    · subst hl
      exact ⟨f, by simp⟩
    · obtain ⟨x, hx, hmax⟩ := ih hl
      by_cases hfx : f.fileDate ≤ x.fileDate
      · refine ⟨x, List.mem_cons_of_mem _ hx, ?_⟩
        intro y hy
        rcases List.mem_cons.mp hy with rfl | hy
        · exact hfx
        · exact hmax y hy
      · refine ⟨f, List.mem_cons_self _ _, ?_⟩
        intro y hy
        rcases List.mem_cons.mp hy with rfl | hy
        · exact le_refl _
        · exact le_trans (hmax y hy) (by omega)

/-- First-maximum search fails exactly on the empty list. -/
theorem find_isMaxIn_none_iff (l : List Release) : l.find? (isMaxIn l) = none ↔ l = [] := by
  constructor
  · intro hnone
    by_contra hne
    obtain ⟨x, hx, hmax⟩ := exists_max_date l hne
    rw [List.find?_eq_none] at hnone
    apply hnone x hx
    rw [isMaxIn, List.all_eq_true]
    intro y hy
    simpa using hmax y hy
  · intro h
    subst h
    rfl

/-- The in-place version update keeps the key list unchanged. -/
theorem mapUpdate_keys (l : List (Int × AddonEntry)) (id : Int) (v : String) :
    (l.map (fun p => if p.1 = id then (p.1, { p.2 with version := v }) else p)).map Prod.fst
      = l.map Prod.fst := by
  rw [List.map_map]
  apply List.map_congr_left
  intro p _
  by_cases hp : p.1 = id <;> simp [hp]

/-- Pointwise description of lookups after the in-place version update. -/
theorem lookupAddon_map_update (l : List (Int × AddonEntry)) (id k : Int) (v : String) :
    lookupAddon (l.map (fun p => if p.1 = id then (p.1, { p.2 with version := v }) else p)) k
      = if k = id then (lookupAddon l k).map (fun e => { e with version := v })
        else lookupAddon l k := by
  induction l with
  | nil => simp [lookupAddon]
  | cons p rest ih =>
    by_cases hq : p.1 = id
    · by_cases hp : p.1 = k
      · have hkid : k = id := by rw [← hp, hq]
        simp [lookupAddon, hq, hp, hkid]
      · have hkid : k ≠ id := fun h => hp (by rw [hq, ← h])
        simp [lookupAddon, hq, hp, hkid, Ne.symm hkid, ih]
    · by_cases hp : p.1 = k
      · have hkid : k ≠ id := fun h => hq (by rw [hp, h])
        simp [lookupAddon, hq, hp, hkid]
      · simp [lookupAddon, hq, hp, ih]

/-- Effects of a successful update_version call: the stamp, the path, the
key list, every other entry and every alpha flag stay unchanged, and the
named entry, when present, only has its version field replaced. -/
theorem update_version_ok {m : WAU_Manifest} {id : Int} {v : String} {m' : WAU_Manifest}
    (h : update_version m id v = .ok m') :
    m'.manifest_path = m.manifest_path ∧ m'.version = m.version ∧
    m'.addons.map Prod.fst = m.addons.map Prod.fst ∧
    (∀ k, lookupAddon m'.addons k
        = if k = id then (lookupAddon m.addons k).map (fun e => { e with version := v })
          else lookupAddon m.addons k) := by
  unfold update_version at h
  cases hlu : lookupAddon m.addons id with
  | none =>
    rw [hlu] at h
    exact Except.noConfusion h
  | some e0 =>
    rw [hlu] at h
    simp only [Except.ok.injEq] at h
    subst h
    exact ⟨rfl, rfl, mapUpdate_keys m.addons id v, fun k => lookupAddon_map_update m.addons id k v⟩

/-- commit succeeds whenever the version attribute is set. -/
theorem commitLines_some {m : WAU_Manifest} {v : String} (h : m.version = some v) :
    commitLines m = .ok (manifestLines m v) := by
  simp [commitLines, h]

/-- Alpha flags survive update_version unchanged. -/
theorem flags_after_update {m m' : WAU_Manifest} {id : Int} {v : String}
    (h : update_version m id v = .ok m') (k : Int) :
    (lookupAddon m'.addons k).map AddonEntry.install_alpha
      = (lookupAddon m.addons k).map AddonEntry.install_alpha := by
  rw [(update_version_ok h).2.2.2 k]
  by_cases hk : k = id
  · rw [if_pos hk]
    cases lookupAddon m.addons k <;> rfl
  · rw [if_neg hk]

/-- A worker never changes the manifest path. -/
theorem processAddon_path (mf : WAU_Manifest) (fs : Option (List String)) (env : AddonEnv) (id : Int) (fl : String) :
    (processAddon mf fs env id fl).manifest.manifest_path = mf.manifest_path := by
  unfold processAddon
  repeat' split
  all_goals first
    | rfl
    | (exact (update_version_ok (by assumption)).1)

/-- A worker never changes the in-memory catalog stamp. -/
theorem processAddon_stamp (mf : WAU_Manifest) (fs : Option (List String)) (env : AddonEnv) (id : Int) (fl : String) :
    (processAddon mf fs env id fl).manifest.version = mf.version := by
  unfold processAddon
  repeat' split
  all_goals first
    | rfl
    | (exact (update_version_ok (by assumption)).2.1)

/-- A worker never adds or removes manifest entries. -/
theorem processAddon_keys (mf : WAU_Manifest) (fs : Option (List String)) (env : AddonEnv) (id : Int) (fl : String) :
    (processAddon mf fs env id fl).manifest.addons.map Prod.fst = mf.addons.map Prod.fst := by
  unfold processAddon
  repeat' split
  all_goals first
    | rfl
    | (exact (update_version_ok (by assumption)).2.2.1)

/-- A worker never changes any install_alpha flag. -/
theorem processAddon_flags (mf : WAU_Manifest) (fs : Option (List String)) (env : AddonEnv) (id : Int) (fl : String) (k : Int) :
    (lookupAddon (processAddon mf fs env id fl).manifest.addons k).map AddonEntry.install_alpha
      = (lookupAddon mf.addons k).map AddonEntry.install_alpha := by
  unfold processAddon
  repeat' split
  all_goals first
    | rfl
    | (exact flags_after_update (by assumption) k)

/-- A worker touches no entry other than its own. -/
theorem processAddon_frame (mf : WAU_Manifest) (fs : Option (List String)) (env : AddonEnv) (id : Int) (fl : String)
    (k : Int) (hk : k ≠ id) :
    lookupAddon (processAddon mf fs env id fl).manifest.addons k = lookupAddon mf.addons k := by
  unfold processAddon
  repeat' split
  all_goals first
    | rfl
    | (rw [(update_version_ok (by assumption)).2.2.2 k, if_neg hk])

/-- A worker that did not commit leaves the manifest file untouched. -/
theorem processAddon_fs (mf : WAU_Manifest) (fs : Option (List String)) (env : AddonEnv) (id : Int) (fl : String)
    (h : (processAddon mf fs env id fl).outcome.isUpdated = false) :
    (processAddon mf fs env id fl).fs = fs := by
  revert h
  unfold processAddon
  repeat' split
  all_goals intro h
  all_goals first
    | rfl
    | (exact absurd h (by simp [WorkerOutcome.isUpdated]))

/-- With the stamp set, commit never raises. -/
theorem commitLines_ne_error {m : WAU_Manifest} {w : String} {e : PyErr}
    (hv : m.version = some w) (h : commitLines m = .error e) : False := by
  rw [commitLines_some hv] at h
  exact Except.noConfusion h

/-- With the stamp set, a worker that did not commit leaves the in-memory
manifest untouched as well. -/
theorem processAddon_manifest_unchanged (mf : WAU_Manifest) (fs : Option (List String)) (env : AddonEnv)
    (id : Int) (fl : String) (w : String) (hw : mf.version = some w)
    (h : (processAddon mf fs env id fl).outcome.isUpdated = false) :
    (processAddon mf fs env id fl).manifest = mf := by
  revert h
  unfold processAddon
  repeat' split
  all_goals intro h
  all_goals try rfl
  all_goals simp only [WorkerOutcome.isUpdated] at h
  all_goals try (exact Bool.noConfusion h)
  rename_i x1 mf1 hupd x2 e hcl
  exact absurd hcl (fun hcl2 => commitLines_ne_error (((update_version_ok hupd).2.1).trans hw) hcl2)

/-- A worker's end state depends only on its own manifest entry (and its
environment), never on the file state or on other entries: this is the
isolation granted by the per-entry access pattern of process_addon. -/
theorem processAddon_outcome_congr (mf1 mf2 : WAU_Manifest) (fs1 fs2 : Option (List String)) (env : AddonEnv)
    (id : Int) (fl : String)
    (hlk : lookupAddon mf2.addons id = lookupAddon mf1.addons id)
    (w1 : String) (hw1 : mf1.version = some w1) (w2 : String) (hw2 : mf2.version = some w2) :
    (processAddon mf2 fs2 env id fl).outcome = (processAddon mf1 fs1 env id fl).outcome := by
  unfold processAddon
  rw [hlk]
  cases hlu : lookupAddon mf1.addons id with
  | none => rfl
  | some entry =>
    dsimp only
    cases hinfo : env.info with
    | error e => rfl
    | ok info =>
      dsimp only
      cases hsel : get_latest_file info entry.install_alpha fl with
      | none => rfl
      | some latest =>
        dsimp only
        by_cases hneq : get_version latest ≠ entry.version
        · rw [if_pos hneq, if_pos hneq]
          by_cases hdl : env.downloadOk = true
          · rw [if_pos hdl, if_pos hdl]
            by_cases hex : env.extractOk = true
            · rw [if_pos hex, if_pos hex]
              cases hu1 : update_version mf1 id (get_version latest) with
              | error e =>
                exfalso
                unfold update_version at hu1
                rw [hlu] at hu1
                exact Except.noConfusion hu1
              | ok m1 =>
                dsimp only
                cases hu2 : update_version mf2 id (get_version latest) with
                | error e =>
                  exfalso
                  unfold update_version at hu2
                  rw [hlk, hlu] at hu2
                  exact Except.noConfusion hu2
                | ok m2 =>
                  dsimp only
                  rw [commitLines_some (((update_version_ok hu1).2.1).trans hw1),
                    commitLines_some (((update_version_ok hu2).2.1).trans hw2)]
            · rw [if_neg hex, if_neg hex]
          · rw [if_neg hdl, if_neg hdl]
        · rw [if_neg hneq, if_neg hneq]

/-- Workers preserve the path, the stamp, the key list, every alpha flag,
and every entry whose id is not among the ones being processed. -/
theorem runWorkers_frame (fl : String) (env : Int → AddonEnv) :
    ∀ (ids : List Int) (mf : WAU_Manifest) (fs : Option (List String)),
    (runWorkers fl env mf fs ids).manifest.manifest_path = mf.manifest_path ∧
    (runWorkers fl env mf fs ids).manifest.version = mf.version ∧
    (runWorkers fl env mf fs ids).manifest.addons.map Prod.fst = mf.addons.map Prod.fst ∧
    (∀ k, (lookupAddon (runWorkers fl env mf fs ids).manifest.addons k).map AddonEntry.install_alpha
        = (lookupAddon mf.addons k).map AddonEntry.install_alpha) ∧
    (∀ k, k ∉ ids → lookupAddon (runWorkers fl env mf fs ids).manifest.addons k = lookupAddon mf.addons k) := by
  intro ids
  induction ids with
  | nil => intro mf fs; exact ⟨rfl, rfl, rfl, fun k => rfl, fun k _ => rfl⟩
  | cons id rest ih =>
    intro mf fs
    have hs := ih (processAddon mf fs (env id) id fl).manifest (processAddon mf fs (env id) id fl).fs
    have hrw : (runWorkers fl env mf fs (id :: rest)).manifest
        = (runWorkers fl env (processAddon mf fs (env id) id fl).manifest
            (processAddon mf fs (env id) id fl).fs rest).manifest := rfl
    refine ⟨?_, ?_, ?_, ?_, ?_⟩
    · rw [hrw, hs.1, processAddon_path]
    · rw [hrw, hs.2.1, processAddon_stamp]
    · rw [hrw, hs.2.2.1, processAddon_keys]
    · intro k
      rw [hrw, hs.2.2.2.1 k, processAddon_flags]
    · intro k hk
      have hk1 : k ≠ id := fun h => hk (h ▸ List.mem_cons_self id rest)
      have hk2 : k ∉ rest := fun h => hk (List.mem_cons_of_mem _ h)
      rw [hrw, hs.2.2.2.2 k hk2, processAddon_frame mf fs (env id) id fl k hk1]

/-- If no worker committed, the manifest file is untouched. -/
theorem runWorkers_fs (fl : String) (env : Int → AddonEnv) :
    ∀ (ids : List Int) (mf : WAU_Manifest) (fs : Option (List String)),
    (∀ p ∈ (runWorkers fl env mf fs ids).outcomes, p.2.isUpdated = false) →
    (runWorkers fl env mf fs ids).fs = fs := by
  intro ids
  induction ids with
  | nil => intro mf fs _; rfl
  | cons id rest ih =>
    intro mf fs hall
    have houts : (runWorkers fl env mf fs (id :: rest)).outcomes
        = (id, (processAddon mf fs (env id) id fl).outcome)
          :: (runWorkers fl env (processAddon mf fs (env id) id fl).manifest
              (processAddon mf fs (env id) id fl).fs rest).outcomes := rfl
    have hhead : (processAddon mf fs (env id) id fl).outcome.isUpdated = false := by
      apply hall (id, (processAddon mf fs (env id) id fl).outcome)
      rw [houts]
      exact List.mem_cons_self _ _
    have htail : ∀ p ∈ (runWorkers fl env (processAddon mf fs (env id) id fl).manifest
        (processAddon mf fs (env id) id fl).fs rest).outcomes, p.2.isUpdated = false := by
      intro p hp
      apply hall p
      rw [houts]
      exact List.mem_cons_of_mem _ hp
    calc (runWorkers fl env mf fs (id :: rest)).fs
        = (runWorkers fl env (processAddon mf fs (env id) id fl).manifest
            (processAddon mf fs (env id) id fl).fs rest).fs := rfl
      _ = (processAddon mf fs (env id) id fl).fs := ih _ _ htail
      _ = fs := processAddon_fs mf fs (env id) id fl hhead

/-- Each recorded outcome belongs to a spawned id, equals the outcome the
worker would compute from the initial stamped manifest (independence from
the other workers), and, unless it committed, its entry survives the whole
pass unchanged. -/
theorem runWorkers_outcomes (fl : String) (env : Int → AddonEnv) :
    ∀ (ids : List Int) (mf : WAU_Manifest) (fs : Option (List String)) (w : String),
    mf.version = some w → ids.Nodup →
    ∀ p ∈ (runWorkers fl env mf fs ids).outcomes,
      p.1 ∈ ids ∧
      p.2 = (processAddon mf fs (env p.1) p.1 fl).outcome ∧
      (p.2.isUpdated = false →
        lookupAddon (runWorkers fl env mf fs ids).manifest.addons p.1 = lookupAddon mf.addons p.1) := by
  intro ids
  induction ids with
  | nil =>
    intro mf fs w hw hnd p hp
    exact absurd hp (by simp [runWorkers])
  | cons id rest ih =>
    intro mf fs w hw hnd p hp
    have houts : (runWorkers fl env mf fs (id :: rest)).outcomes
        = (id, (processAddon mf fs (env id) id fl).outcome)
          :: (runWorkers fl env (processAddon mf fs (env id) id fl).manifest
              (processAddon mf fs (env id) id fl).fs rest).outcomes := rfl
    rw [houts] at hp
    have hidrest : id ∉ rest := (List.nodup_cons.mp hnd).1
    have hndr : rest.Nodup := (List.nodup_cons.mp hnd).2
    rcases List.mem_cons.mp hp with heq | hmem
    · subst heq
      refine ⟨List.mem_cons_self _ _, rfl, ?_⟩
      intro hupd
      have hsmf : (processAddon mf fs (env id) id fl).manifest = mf :=
        processAddon_manifest_unchanged mf fs (env id) id fl w hw hupd
      have hfr := (runWorkers_frame fl env rest (processAddon mf fs (env id) id fl).manifest
        (processAddon mf fs (env id) id fl).fs).2.2.2.2 id hidrest
      calc lookupAddon (runWorkers fl env mf fs (id :: rest)).manifest.addons id
          = lookupAddon (runWorkers fl env (processAddon mf fs (env id) id fl).manifest
              (processAddon mf fs (env id) id fl).fs rest).manifest.addons id := rfl
        _ = lookupAddon (processAddon mf fs (env id) id fl).manifest.addons id := hfr
        _ = lookupAddon mf.addons id := by rw [hsmf]
    · have hsv : (processAddon mf fs (env id) id fl).manifest.version = some w := by
        rw [processAddon_stamp]
        exact hw
      obtain ⟨hpmem, hpout, hpl⟩ := ih (processAddon mf fs (env id) id fl).manifest
        (processAddon mf fs (env id) id fl).fs w hsv hndr p hmem
      have hpid_ne : p.1 ≠ id := fun h => hidrest (h ▸ hpmem)
      refine ⟨List.mem_cons_of_mem _ hpmem, ?_, ?_⟩
      · rw [hpout]
        exact processAddon_outcome_congr mf (processAddon mf fs (env id) id fl).manifest fs
          (processAddon mf fs (env id) id fl).fs (env p.1) p.1 fl
          (processAddon_frame mf fs (env id) id fl p.1 hpid_ne) w hw w hsv
      · intro hupd
        calc lookupAddon (runWorkers fl env mf fs (id :: rest)).manifest.addons p.1
            = lookupAddon (runWorkers fl env (processAddon mf fs (env id) id fl).manifest
                (processAddon mf fs (env id) id fl).fs rest).manifest.addons p.1 := rfl
          _ = lookupAddon (processAddon mf fs (env id) id fl).manifest.addons p.1 := hpl hupd
          _ = lookupAddon mf.addons p.1 := processAddon_frame mf fs (env id) id fl p.1 hpid_ne

/-- Elimination principle for a successfully terminating run: either the
fast path was taken, or the stamped manifest was handed to the workers. -/
theorem run_ok_elim {bp : String} {fs0 : Option (List String)} {force : Bool} {fl : String}
    {env : RunEnv} {res : RunResult}
    (h : run bp fs0 force fl env = .ok res) :
    ∃ mf api v0, loadManifest bp fs0 = .ok mf ∧ env.apiVersion = .ok api ∧ mf.version = some v0 ∧
      ((api = v0 ∧ force = false ∧ res = ⟨0, mf, fs0, [], 0⟩) ∨
       (¬(api = v0 ∧ force = false) ∧
         res = ⟨0,
           (runWorkers fl env.perAddon { mf with version := some api } fs0 (mf.addons.map Prod.fst)).manifest,
           (runWorkers fl env.perAddon { mf with version := some api } fs0 (mf.addons.map Prod.fst)).fs,
           (runWorkers fl env.perAddon { mf with version := some api } fs0 (mf.addons.map Prod.fst)).outcomes,
           (runWorkers fl env.perAddon { mf with version := some api } fs0 (mf.addons.map Prod.fst)).queries⟩)) := by
  cases hld : loadManifest bp fs0 with
  | error e =>
    rw [run, hld] at h
    exact Except.noConfusion h
  | ok mf =>
    cases hapi : env.apiVersion with
    | error e =>
      rw [run] at h
      rw [hld] at h
      simp only [hapi] at h
      exact Except.noConfusion h
    | ok api =>
      cases hv : mf.version with
      | none =>
        rw [run] at h
        rw [hld] at h
        simp only [hapi, hv] at h
        exact Except.noConfusion h
      | some v0 =>
        rw [run] at h
        rw [hld] at h
        simp only [hapi, hv] at h
        refine ⟨mf, api, v0, rfl, rfl, hv, ?_⟩
        by_cases hfast : api = v0 ∧ force = false
        · rw [if_pos hfast] at h
          simp only [Except.ok.injEq] at h
          exact Or.inl ⟨hfast.1, hfast.2, h.symm⟩
        · rw [if_neg hfast] at h
          simp only [Except.ok.injEq] at h
          exact Or.inr ⟨hfast, h.symm⟩

/-- Concrete stable retail release fixtures. -/
def exRelA : Release := ⟨"r", 1, 5, "a"⟩

/-- Later stable retail release. -/
def exRelB : Release := ⟨"r", 1, 9, "b"⟩

/-- Release of the other flavor with the latest date. -/
def exRelC : Release := ⟨"c", 1, 99, "x"⟩

/-- Non-stable retail release. -/
def exRelD : Release := ⟨"r", 2, 50, "y"⟩

/-- Addon info with a mixed release list. -/
def exInfo : AddonInfo := ⟨"n", [exRelA, exRelB, exRelC, exRelD]⟩

/-- Addon info with no releases at all. -/
def exInfoEmpty : AddonInfo := ⟨"n", []⟩

/-- C4: get_latest_file keeps exactly the releases whose flavor matches and,
when alpha is disallowed, whose release type code is 1; among the survivors
it returns the first one carrying the maximum publish date (ties go to the
first seen, strictly later dates win), and none exactly when no release
survives. Being a pure function of its arguments it is deterministic. -/
theorem get_latest_file_selects_first_latest_survivor (info : AddonInfo) (a : Bool) (fl : String) :
    get_latest_file info a fl
      = (survivors info.latestFiles a fl).find? (isMaxIn (survivors info.latestFiles a fl)) ∧
    (get_latest_file info a fl = none ↔ survivors info.latestFiles a fl = []) ∧
    (∀ r, get_latest_file info a fl = some r →
      r ∈ survivors info.latestFiles a fl ∧
      ∀ x ∈ survivors info.latestFiles a fl, x.fileDate ≤ r.fileDate) := by
  refine ⟨get_latest_file_eq_find info a fl, ?_, ?_⟩
  · rw [get_latest_file_eq_find info a fl]
    exact find_isMaxIn_none_iff _
  · intro r hr
    rw [get_latest_file_eq_find info a fl] at hr
    constructor
    · exact List.mem_of_find?_eq_some hr
    · have hmax := List.find?_some hr
      rw [isMaxIn, List.all_eq_true] at hmax
      intro x hx
      simpa using hmax x hx

/-- Witness for C4: on the empty list the selector returns none, and on the
mixed list it returns the later stable retail release, which dominates the
earlier one. -/
theorem get_latest_file_selects_first_latest_survivor_witness :
    get_latest_file exInfoEmpty false "r" = none ∧
    exRelB ∈ survivors exInfo.latestFiles false "r" ∧
    exRelA.fileDate ≤ exRelB.fileDate :=
  ⟨(get_latest_file_selects_first_latest_survivor exInfoEmpty false "r").2.1.mpr (by decide),
    ((get_latest_file_selects_first_latest_survivor exInfo false "r").2.2 exRelB (by decide)).1,
    ((get_latest_file_selects_first_latest_survivor exInfo false "r").2.2 exRelB (by decide)).2
      exRelA (by decide)⟩

/-- Release whose display name contains a tab. -/
def exRelTab : Release := ⟨"r", 1, 5, "a\tb"⟩

/-- C5 counterexample: a tab is a whitespace character, yet get_version
leaves it in the derived version token unreplaced, so whitespace characters
are not normalized to a non-whitespace separator. -/
theorem get_version_counterexample_tab :
    get_version exRelTab = "a\tb" ∧
    '\t' ∈ (get_version exRelTab).data ∧
    Char.isWhitespace '\t' = true ∧
    isPySpace '\t' = true := by
  refine ⟨by decide, by decide, by decide, by decide⟩

/-- C5 (amended): the version token is derived deterministically from the
display name by replacing each space character (U+0020) with an underscore;
the result never contains a space, but other whitespace characters are kept
unchanged. Display name "1 1" yields "1_1". -/
theorem get_version_amended :
    (∀ r1 r2 : Release, r1.displayName = r2.displayName → get_version r1 = get_version r2) ∧
    (∀ r : Release, ∀ c ∈ (get_version r).data, c ≠ ' ') ∧
    (∀ r : Release, (get_version r).data = r.displayName.data.map replaceSpace) ∧
    get_version ⟨"r", 1, 5, "1 1"⟩ = "1_1" := by
  refine ⟨?_, ?_, fun r => rfl, by decide⟩
  · intro r1 r2 h
    unfold get_version
    rw [h]
  · intro r c hc
    have hc2 : c ∈ r.displayName.data.map replaceSpace := hc
    obtain ⟨d, hd, hdc⟩ := List.mem_map.mp hc2
    intro hceq
    rw [hceq] at hdc
    unfold replaceSpace at hdc
    by_cases hsp : d = ' '
    · rw [if_pos hsp] at hdc
      exact absurd hdc (by decide)
    · rw [if_neg hsp] at hdc
      exact hsp hdc

/-- Witness for C5: determinism applied to two releases sharing the display
name, plus the worked example. -/
theorem get_version_amended_witness :
    get_version ⟨"r", 1, 5, "1 1"⟩ = get_version ⟨"q", 2, 7, "1 1"⟩ ∧
    get_version ⟨"r", 1, 5, "1 1"⟩ = "1_1" :=
  ⟨get_version_amended.1 ⟨"r", 1, 5, "1 1"⟩ ⟨"q", 2, 7, "1 1"⟩ rfl,
    get_version_amended.2.2.2⟩

/-- Manifest holding one retail addon at version 1_0. -/
def exManifest42 : WAU_Manifest := ⟨"p/wau_manifest.txt", some "ts", [(42, ⟨false, "1_0"⟩)]⟩

/-- Worker environment whose catalog answer has no retail release. -/
def exEnvNoMatch : AddonEnv := ⟨.ok ⟨"n", [exRelC]⟩, true, true⟩

/-- C1 (code bug): when get_latest_file returns none (no release of the
requested flavor), process_addon does not treat it as up to date: it passes
the None straight into get_version, whose subscript of None raises
TypeError and kills the worker thread. The ledger is indeed untouched (no
manifest or file change), but the worker ends crashed, not UpToDate. -/
theorem processAddon_crashes_on_none_selection :
    get_latest_file ⟨"n", [exRelC]⟩ false "r" = none ∧
    processAddon exManifest42 (some ["ts", "42 0 1_0"]) exEnvNoMatch 42 "r"
      = ⟨exManifest42, some ["ts", "42 0 1_0"], .crashed .typeError, 1⟩ ∧
    WorkerOutcome.crashed .typeError ≠ WorkerOutcome.upToDate := by
  refine ⟨by decide, by decide, by decide⟩

/-- Run environment with a fixed catalog version and benign workers. -/
def exRunEnv : RunEnv := ⟨.ok "ts", fun _ => ⟨.ok ⟨"", []⟩, true, true⟩⟩

/-- C3 (code bug): with no manifest file, the constructor itself is happy
(empty entry map, logged and swallowed OSError) but self.version is never
assigned; the toplevel comparison then raises AttributeError and the whole
run aborts — with or without the force flag — instead of proceeding as a
first run. -/
theorem run_crashes_on_first_run :
    loadManifest "p" none = .ok ⟨"p/wau_manifest.txt", none, []⟩ ∧
    run "p" none false "r" exRunEnv = .error .attributeError ∧
    run "p" none true "r" exRunEnv = .error .attributeError := by
  refine ⟨rfl, by decide, by decide⟩

/-- C9: when the remote catalog version equals the stored stamp and force
is off, the orchestrator exits successfully at once: no worker is spawned,
no per-item query is made, and the manifest file is untouched. -/
theorem run_fast_path (bp : String) (fs0 : Option (List String)) (fl : String) (env : RunEnv)
    (mf : WAU_Manifest) (v : String)
    (h1 : loadManifest bp fs0 = .ok mf) (h2 : mf.version = some v) (h3 : env.apiVersion = .ok v) :
    run bp fs0 false fl env = .ok ⟨0, mf, fs0, [], 0⟩ := by
  simp [run, h1, h3, h2]

/-- Loaded form of the one-line manifest used as the fast-path witness. -/
def exManifestEmpty : WAU_Manifest := ⟨"p/wau_manifest.txt", some "ts", []⟩

/-- Witness for C9 at a concrete manifest file and catalog version. -/
theorem run_fast_path_witness :
    loadManifest "p" (some ["ts"]) = .ok exManifestEmpty ∧
    exManifestEmpty.version = some "ts" ∧
    exRunEnv.apiVersion = .ok "ts" ∧
    run "p" (some ["ts"]) false "r" exRunEnv = .ok ⟨0, exManifestEmpty, some ["ts"], [], 0⟩ :=
  ⟨by decide, rfl, rfl,
    run_fast_path "p" (some ["ts"]) "r" exRunEnv exManifestEmpty "ts" (by decide) rfl rfl⟩

/-- C6: if every worker of a successful run ends Failed or UpToDate (no
outcome is an update), the manifest file is exactly its pre-run state, so
the persisted catalog version equals its pre-run value — even though the
in-memory stamp was overwritten with the fetched version. -/
theorem run_no_commit_no_stamp_advance (bp : String) (fs0 : Option (List String)) (force : Bool)
    (fl : String) (env : RunEnv) (res : RunResult)
    (h : run bp fs0 force fl env = .ok res)
    (hall : ∀ p ∈ res.outcomes, (p : Int × WorkerOutcome).2.isUpdated = false) :
    res.fs = fs0 ∧ (∀ api, env.apiVersion = .ok api → res.manifest.version = some api) := by
  obtain ⟨mf, api, v0, hld, hapi, hv, hcase⟩ := run_ok_elim h
  rcases hcase with ⟨hav, hforce, hres⟩ | ⟨hslow, hres⟩
  · subst hres
    refine ⟨rfl, ?_⟩
    intro api2 hapi2
    rw [hapi] at hapi2
    have ha2 : api = api2 := Except.ok.inj hapi2
    rw [hv, ← hav, ha2]
  · subst hres
    constructor
    · exact runWorkers_fs fl env.perAddon (mf.addons.map Prod.fst)
        { mf with version := some api } fs0 hall
    · intro api2 hapi2
      rw [hapi] at hapi2
      have ha2 : api = api2 := Except.ok.inj hapi2
      have := (runWorkers_frame fl env.perAddon (mf.addons.map Prod.fst)
        { mf with version := some api } fs0).2.1
      rw [this, ← ha2]

/-- Manifest file lines used by the failure-isolation witnesses. -/
def exMf7 : WAU_Manifest := ⟨"p/wau_manifest.txt", some "ts", [(42, ⟨false, "1_0"⟩)]⟩

/-- Run environment whose single addon has a newer release but whose
download fails. -/
def exEnvDownloadFail : RunEnv := ⟨.ok "new", fun _ => ⟨.ok ⟨"n", [⟨"r", 1, 5, "2 0"⟩]⟩, false, true⟩⟩

/-- Result of the failed-download run used by the witnesses. -/
def exRes7 : RunResult :=
  ⟨0, ⟨"p/wau_manifest.txt", some "new", [(42, ⟨false, "1_0"⟩)]⟩,
    some ["ts", "42 0 1_0"], [(42, .downloadFailed)], 1⟩

/-- C7: the run exits successfully regardless of worker outcomes; every
worker's end state is exactly what it would compute from the initial
stamped manifest and its own environment (one item's failure cannot change
another's outcome); and any worker that did not commit — in particular one
whose download failed — leaves its ledger entry exactly as loaded, so the
old installed version is retained for the next run. -/
theorem run_download_failure_isolated (bp : String) (fs0 : Option (List String)) (force : Bool)
    (fl : String) (env : RunEnv) (res : RunResult) (mf : WAU_Manifest) (api : String)
    (h : run bp fs0 force fl env = .ok res)
    (hld : loadManifest bp fs0 = .ok mf)
    (hapi : env.apiVersion = .ok api) :
    res.exitCode = 0 ∧
    ∀ p ∈ res.outcomes,
      p.2 = (processAddon { mf with version := some api } fs0 (env.perAddon p.1) p.1 fl).outcome ∧
      (p.2.isUpdated = false →
        lookupAddon res.manifest.addons p.1 = lookupAddon mf.addons p.1) ∧
      (p.2 = .downloadFailed →
        lookupAddon res.manifest.addons p.1 = lookupAddon mf.addons p.1) := by
  obtain ⟨mf2, api2, v0, hld2, hapi2, hv2, hcase⟩ := run_ok_elim h
  rw [hld] at hld2
  have hmf2 : mf = mf2 := Except.ok.inj hld2
  subst hmf2
  rw [hapi] at hapi2
  have hapi2e : api = api2 := Except.ok.inj hapi2
  subst hapi2e
  rcases hcase with ⟨hav, hforce, hres⟩ | ⟨hslow, hres⟩
  · subst hres
    exact ⟨rfl, fun p hp => absurd hp (by simp)⟩
  · subst hres
    refine ⟨rfl, ?_⟩
    intro p hp
    have hnd := loadManifest_nodup bp fs0 mf hld
    obtain ⟨hpmem, hpout, hpl⟩ := runWorkers_outcomes fl env.perAddon (mf.addons.map Prod.fst)
      { mf with version := some api } fs0 api rfl hnd p hp
    refine ⟨hpout, fun hupd => hpl hupd, fun hdf => hpl (by rw [hdf]; rfl)⟩

/-- Witness for C7: the failed-download run ends successfully with the
entry for addon 42 still at its old version. -/
theorem run_download_failure_isolated_witness :
    run "p" (some ["ts", "42 0 1_0"]) false "r" exEnvDownloadFail = .ok exRes7 ∧
    exRes7.exitCode = 0 ∧
    (42, WorkerOutcome.downloadFailed) ∈ exRes7.outcomes ∧
    lookupAddon exRes7.manifest.addons 42 = lookupAddon exMf7.addons 42 := by
  refine ⟨by decide, ?_, by decide, ?_⟩
  · exact (run_download_failure_isolated "p" (some ["ts", "42 0 1_0"]) false "r" exEnvDownloadFail
      exRes7 exMf7 "new" (by decide) (by decide) rfl).1
  · exact ((run_download_failure_isolated "p" (some ["ts", "42 0 1_0"]) false "r" exEnvDownloadFail
      exRes7 exMf7 "new" (by decide) (by decide) rfl).2
      (42, WorkerOutcome.downloadFailed) (by decide)).2.2 rfl

/-- C10: after load, no operation grows, shrinks or reflags the entry map.
update_version keeps the stamp, the key list, every other entry and every
flag, changing only the named entry's version field; commit is a pure
serializer whose successful result is only the written lines (it has no
manifest output at all in this model, mirroring a method that only writes
to disk); and across a whole successful run the final in-memory manifest
has exactly the loaded key list and the loaded flags. -/
theorem manifest_structure_frame :
    (∀ (m : WAU_Manifest) (id : Int) (v : String) (m' : WAU_Manifest),
      update_version m id v = .ok m' →
      m'.version = m.version ∧
      m'.addons.map Prod.fst = m.addons.map Prod.fst ∧
      (∀ k, k ≠ id → lookupAddon m'.addons k = lookupAddon m.addons k) ∧
      (∀ k, (lookupAddon m'.addons k).map AddonEntry.install_alpha
          = (lookupAddon m.addons k).map AddonEntry.install_alpha) ∧
      (∀ e, lookupAddon m.addons id = some e → lookupAddon m'.addons id = some ⟨e.install_alpha, v⟩)) ∧
    (∀ (m : WAU_Manifest) (v : String), m.version = some v → commitLines m = .ok (manifestLines m v)) ∧
    (∀ (bp : String) (fs0 : Option (List String)) (force : Bool) (fl : String) (env : RunEnv)
      (res : RunResult) (mf : WAU_Manifest),
      run bp fs0 force fl env = .ok res → loadManifest bp fs0 = .ok mf →
      res.manifest.addons.map Prod.fst = mf.addons.map Prod.fst ∧
      (∀ k, (lookupAddon res.manifest.addons k).map AddonEntry.install_alpha
          = (lookupAddon mf.addons k).map AddonEntry.install_alpha)) := by
  refine ⟨?_, ?_, ?_⟩
  · intro m id v m' h
    obtain ⟨hpath, hver, hkeys, hlk⟩ := update_version_ok h
    refine ⟨hver, hkeys, ?_, ?_, ?_⟩
    · intro k hk
      rw [hlk k, if_neg hk]
    · intro k
      exact flags_after_update h k
    · intro e he
      rw [hlk id, if_pos rfl, he]
      rfl
  · intro m v hv
    exact commitLines_some hv
  · intro bp fs0 force fl env res mf h hld
    obtain ⟨mf2, api, v0, hld2, hapi, hv, hcase⟩ := run_ok_elim h
    rw [hld] at hld2
    have hmf2 : mf = mf2 := Except.ok.inj hld2
    subst hmf2
    rcases hcase with ⟨hav, hforce, hres⟩ | ⟨hslow, hres⟩
    · subst hres
      exact ⟨rfl, fun k => rfl⟩
    · subst hres
      constructor
      · exact (runWorkers_frame fl env.perAddon (mf.addons.map Prod.fst)
          { mf with version := some api } fs0).2.2.1
      · exact (runWorkers_frame fl env.perAddon (mf.addons.map Prod.fst)
          { mf with version := some api } fs0).2.2.2.1

/-- Updated form of the one-entry manifest. -/
def exMf7upd : WAU_Manifest := ⟨"p/wau_manifest.txt", some "ts", [(42, ⟨false, "2_0"⟩)]⟩

/-- Witness for C10: a concrete update_version call and a concrete run both
preserve structure. -/
theorem manifest_structure_frame_witness :
    update_version exMf7 42 "2_0" = .ok exMf7upd ∧
    exMf7upd.version = exMf7.version ∧
    lookupAddon exMf7upd.addons 42 = some ⟨false, "2_0"⟩ ∧
    exRes7.manifest.addons.map Prod.fst = exMf7.addons.map Prod.fst := by
  refine ⟨by decide, ?_, ?_, ?_⟩
  · exact (manifest_structure_frame.1 exMf7 42 "2_0" exMf7upd (by decide)).1
  · exact (manifest_structure_frame.1 exMf7 42 "2_0" exMf7upd (by decide)).2.2.2.2
      ⟨false, "1_0"⟩ (by decide)
  · exact (manifest_structure_frame.2.2 "p" (some ["ts", "42 0 1_0"]) false "r" exEnvDownloadFail
      exRes7 exMf7 (by decide) (by decide)).1

/-- Manifest whose only entry carries the empty version token. -/
def exMfEmptyTok : WAU_Manifest := ⟨"p", some "ts", [(42, ⟨false, ""⟩)]⟩

/-- C8 counterexample: every version token of this manifest is free of
whitespace (one of them is empty), yet committing and reloading does not
give back an equal manifest — the load crashes with IndexError, because
the committed line "42 0 " splits into only two columns. -/
theorem roundTrip_counterexample_empty_token :
    (("" : String).data.all (fun c => !isPySpace c)) = true ∧
    (("ts" : String).data.all (fun c => !isPySpace c)) = true ∧
    roundTrip "p" exMfEmptyTok = .error .indexError := by
  refine ⟨by decide, by decide, by decide⟩

/-- C8 (amended): committing and reloading a manifest yields a structurally
equal manifest — same catalog version, same keys in the same order, same
flags and versions — provided the keys are distinct, the catalog version
token is whitespace-free, and every entry version token is nonempty and
whitespace-free. -/
theorem roundTrip_ok (bp : String) (m : WAU_Manifest) (v : String)
    (hv : m.version = some v)
    (hvws : ∀ c ∈ v.data, isPySpace c = false)
    (hne : ∀ p ∈ m.addons, p.2.version.data ≠ [])
    (hws : ∀ p ∈ m.addons, ∀ c ∈ p.2.version.data, isPySpace c = false)
    (hnd : (m.addons.map Prod.fst).Nodup) :
    roundTrip bp m = .ok (m.version, m.addons) := by
  unfold roundTrip
  rw [commitLines_some hv]
  have hbody : parseManifestBody [] (m.addons.map entryLine) = .ok m.addons := by
    simpa using parseManifestBody_map m.addons []
      (fun p hp => ⟨hne p hp, hws p hp⟩) hnd (fun p _ => rfl)
  unfold loadManifest
  simp only [manifestLines, List.tail_cons, hbody, List.headD_cons]
  rw [rstrip_eq_self v hvws, hv]

/-- Whitespace-free two-entry manifest for the round-trip witness. -/
def exMfRT : WAU_Manifest :=
  ⟨"p/wau_manifest.txt", some "ts", [(42, ⟨false, "v1"⟩), (7, ⟨true, "x"⟩)]⟩

/-- Witness for C8 at a concrete two-entry manifest. -/
theorem roundTrip_ok_witness :
    roundTrip "p" exMfRT = .ok (some "ts", [(42, ⟨false, "v1"⟩), (7, ⟨true, "x"⟩)]) :=
  roundTrip_ok "p" exMfRT "ts" rfl (by decide) (by decide) (by decide) (by decide)

/-- One-entry manifest used by the commit-trace counterexample. -/
def exMfC2 : WAU_Manifest := ⟨"t", some "ts", [(1, ⟨false, "v1"⟩)]⟩

/-- C2 counterexample: the exact operation trace of commit on a one-entry
manifest contains no rename at all, and right after its open(.., "w") the
target file is visibly empty — a truncated intermediate state that differs
from both the previous content and the final content, so a concurrent
reader can observe a truncated file; there is no write-to-temp-then-rename
step. -/
theorem commit_counterexample_truncation :
    commitTrace exMfC2 = [.openTrunc "t", .writeStr "ts\n", .writeStr "1 0 v1\n", .closeFile] ∧
    ((commitTrace exMfC2).all (fun op => !op.isRename)) = true ∧
    statesDuring "t" (some "old") (commitTrace exMfC2)
      = [some "", some "ts\n", some "ts\n1 0 v1\n", some "ts\n1 0 v1\n"] ∧
    some "" ∈ statesDuring "t" (some "old") (commitTrace exMfC2) ∧
    ("" : String) ≠ "ts\n1 0 v1\n" ∧
    ("" : String) ≠ "old" := by
  refine ⟨by decide, by decide, by decide, by decide, by decide, by decide⟩

/-- C2 (amended): commit overwrites the manifest file in place: its trace
opens the target path with truncation, writes the version line and one
line per entry, and closes; no rename and no temporary file occur; the
final visible content is the canonical serialization, but immediately
after the open a concurrent reader sees an empty, truncated file. -/
theorem commitTrace_amended (m : WAU_Manifest) (v : String) (hv : m.version = some v) :
    commitTrace m = .openTrunc m.manifest_path
        :: ((manifestLines m v).map (fun l => FsOp.writeStr (l ++ "\n")) ++ [.closeFile]) ∧
    (∀ op ∈ commitTrace m, op.isRename = false) ∧
    (∀ c0 : Option String,
      finalContent m.manifest_path c0 (commitTrace m) = some (linesText (manifestLines m v))) ∧
    (∀ c0 : Option String, some "" ∈ statesDuring m.manifest_path c0 (commitTrace m)) := by
  have htr : commitTrace m = .openTrunc m.manifest_path
      :: ((manifestLines m v).map (fun l => FsOp.writeStr (l ++ "\n")) ++ [.closeFile]) := by
    simp [commitTrace, hv]
  have hfold : ∀ (L : List String) (s : String),
      (L.map (fun l => FsOp.writeStr (l ++ "\n"))).foldl (applyOp m.manifest_path) (some s)
        = some (s ++ linesText L) := by
    intro L
    induction L with
    | nil =>
      intro s
      simp [linesText]
    | cons l ls ihL =>
      intro s
      simp only [List.map_cons, List.foldl_cons, applyOp]
      rw [ihL (s ++ (l ++ "\n"))]
      congr 1
      show s ++ (l ++ "\n") ++ linesText ls = s ++ (l ++ "\n" ++ linesText ls)
      rw [String.append_assoc]
  refine ⟨htr, ?_, ?_, ?_⟩
  · intro op hop
    rw [htr] at hop
    simp only [List.mem_cons, List.mem_append, List.mem_map, List.mem_singleton] at hop
    rcases hop with rfl | (⟨l, hl, rfl⟩ | hcl)
    · rfl
    · rfl
    · rcases hcl with rfl | h
      · rfl
      · exact absurd h (List.not_mem_nil op)
  · intro c0
    rw [htr]
    unfold finalContent
    rw [List.foldl_cons]
    have hopen : applyOp m.manifest_path c0 (FsOp.openTrunc m.manifest_path) = some "" := by
      simp [applyOp]
    rw [hopen, List.foldl_append, hfold (manifestLines m v) ""]
    simp [applyOp]
  · intro c0
    rw [htr]
    have hopen : applyOp m.manifest_path c0 (FsOp.openTrunc m.manifest_path) = some "" := by
      simp [applyOp]
    simp only [statesDuring, hopen]
    exact List.mem_cons_self _ _

/-- Witness for C2 at the one-entry manifest: the trace shape, the absence
of renames, the final serialized content and the visible truncated state. -/
theorem commitTrace_amended_witness :
    commitTrace exMfC2 = .openTrunc "t"
        :: ((manifestLines exMfC2 "ts").map (fun l => FsOp.writeStr (l ++ "\n")) ++ [.closeFile]) ∧
    finalContent "t" (some "old") (commitTrace exMfC2) = some (linesText (manifestLines exMfC2 "ts")) ∧
    some "" ∈ statesDuring "t" (some "old") (commitTrace exMfC2) :=
  ⟨(commitTrace_amended exMfC2 "ts" rfl).1,
    (commitTrace_amended exMfC2 "ts" rfl).2.2.1 (some "old"),
    (commitTrace_amended exMfC2 "ts" rfl).2.2.2 (some "old")⟩

/-- Witness for C6: in the failed-download run no worker updates, the file
keeps its pre-run lines, and the in-memory stamp was overwritten. -/
theorem run_no_commit_no_stamp_advance_witness :
    run "p" (some ["ts", "42 0 1_0"]) false "r" exEnvDownloadFail = .ok exRes7 ∧
    exRes7.fs = some ["ts", "42 0 1_0"] ∧
    exRes7.manifest.version = some "new" := by
  refine ⟨by decide, ?_, ?_⟩
  · exact (run_no_commit_no_stamp_advance "p" (some ["ts", "42 0 1_0"]) false "r"
      exEnvDownloadFail exRes7 (by decide) (by decide)).1
  · exact (run_no_commit_no_stamp_advance "p" (some ["ts", "42 0 1_0"]) false "r"
      exEnvDownloadFail exRes7 (by decide) (by decide)).2 "new" rfl
